import Mathlib

/-!
Shallow embedding of `feature_engine/encoding/ordinal.py` (`OrdinalEncoder`),
together with proofs of the specified properties.

Modelling conventions:
* a dataframe is a list of named columns (`Frame`), cells of the configured
  (categorical) columns drawn from a type `α` with decidable equality;
* the target series is a list of rationals (the code computes arithmetic
  means of the target with pandas floats; we model exact arithmetic in `ℚ`);
* a Python dict built by a comprehension over a duplicate-free key sequence
  is modelled as an association list with `alookup`;
* a raised exception is modelled as a `some errorMessage` / `Except.error`
  result; since `fit` mutates `self`, it returns the post-call state
  together with the optional error.
-/

namespace FeatureEngine

/-- A tabular input: named columns, each a top-to-bottom list of cells. -/
abbrev Frame (α : Type _) := List (String × List α)

/-- Lookup of the first binding of a key in an association list
(for the duplicate-free key sequences produced by `fit`, this is exactly
Python dict lookup). -/
def alookup {α : Type _} {β : Type _} [DecidableEq α] (c : α) : List (α × β) → Option β
  | [] => none
  | kv :: rest => if kv.1 = c then some kv.2 else alookup c rest

/-- Column selection `X[var]` (the validator guarantees the column exists;
a missing column is modelled as empty). -/
def colOf {α : Type _} [DecidableEq α] (X : Frame α) (var : String) : List α :=
  (alookup var X).getD []

/-- pandas `Series.unique()`: the distinct values in order of first
appearance when scanning top-to-bottom (each later duplicate of the head is
discarded after the recursive pass; `mem_uniques`, `nodup_uniques` and
`takeWhile_uniques` below check this against the first-appearance
description). -/
def uniques {α : Type _} [DecidableEq α] : List α → List α
  | [] => []
  | x :: xs => x :: (uniques xs).filter (fun a => decide (a ≠ x))

/-- pandas `groupby(var)["target"].mean()` evaluated at one group key:
the arithmetic mean of the target over the rows whose cell equals `c`
(rows aligned positionally, as `pd.concat([X, y], axis=1)` aligns them). -/
def targetMean {α : Type _} [DecidableEq α] (col : List α) (y : List ℚ) (c : α) : ℚ :=
  let ys := ((col.zip y).filter (fun p => decide (p.1 = c))).map Prod.snd
  ys.sum / (ys.length : ℚ)

/-- `temp.groupby([var])["target"].mean().sort_values(ascending=True).index`:
the distinct categories of the column sorted by ascending target mean.
pandas' default quicksort leaves the order of equal means unspecified; the
model fixes one definite order (stable sort over first-appearance order),
which agrees with pandas wherever means are distinct. -/
def orderedCategories {α : Type _} [DecidableEq α] (col : List α) (y : List ℚ) : List α :=
  (List.insertionSort (fun p q : α × ℚ => p.2 ≤ q.2)
    ((uniques col).map (fun c => (c, targetMean col y c)))).map Prod.fst

/-- `temp.columns = list(X.columns) + ["target"]`: the column labels of the
frame obtained by joining the target to the predictors. -/
def tempColumns {α : Type _} (X : Frame α) : List String :=
  X.map Prod.fst ++ ["target"]

/-- The per-variable index computation of the `ordered` branch.
When `X` itself has a column labelled `"target"`, the join gives `temp` two
columns with that label, so `temp.groupby([var])["target"].mean()` yields a
DataFrame rather than a Series and `.sort_values(ascending=True)` raises
`TypeError` (its `by` argument is then required); otherwise the selection is
the joined target series and the sorted index is `orderedCategories`. -/
def orderedIndex {α : Type _} [DecidableEq α] (X : Frame α) (y : List ℚ) (var : String) :
    Except String (List α) :=
  if "target" ∈ X.map Prod.fst then
    .error "sort_values() missing 1 required positional argument: by"
  else
    .ok (orderedCategories (colOf X var) y)

/-- The loop body computing `t` for one variable (`__init__` guarantees the
method is `"ordered"` or `"arbitrary"`, so the else-branch is the
`elif self.encoding_method == "arbitrary"` branch). -/
def tIndex {α : Type _} [DecidableEq α] (method : String) (X : Frame α) (y : List ℚ)
    (var : String) : Except String (List α) :=
  if method = "ordered" then orderedIndex X y var
  else .ok (uniques (colOf X var))

/-- `{k: i for i, k in enumerate(t, 0)}` as an association list
(`t` is duplicate-free in every use, so first-binding lookup coincides with
Python's last-write-wins dict). -/
def enumerateDict {α : Type _} (t : List α) : List (α × Nat) :=
  t.enum.map (fun p => (p.2, p.1))

/-- The encoder object: configured method and variables, and the learned
`encoder_dict_` (`none` before the first `fit` call). -/
structure EncState (α : Type _) where
  encoding_method : String
  «variables» : List String
  encoder_dict : Option (List (String × List (α × Nat)))
  deriving DecidableEq

/-- `OrdinalEncoder.__init__`: rejects any `encoding_method` other than
`"ordered"` and `"arbitrary"` with a `ValueError` before any fit
(`_check_input_parameter_variables` is external plumbing; the configured
variables are stored as given). -/
def init (α : Type _) (encoding_method : String) (vs : List String) :
    Except String (EncState α) :=
  if encoding_method ∉ ["ordered", "arbitrary"] then
    .error "encoding_method takes only values 'ordered' and 'arbitrary'"
  else
    .ok { encoding_method := encoding_method, «variables» := vs, encoder_dict := none }

/-- Modelled from the spec: `_check_encoding_dictionary` lives in
`BaseCategoricalTransformer`, which is not under `src/`. Per the spec's
§4.4 Mapping Consistency Check, for every configured column its mapping
must be non-empty and have no duplicate codes; a violation is a fatal
error at the end of fit. -/
def checkEncodingDictionary {α : Type _} (d : List (String × List (α × Nat))) :
    Option String :=
  if d.all (fun e => !e.2.isEmpty && (e.2.map Prod.snd).Nodup) then none
  else some "Encoder could not be fitted"

/-- The `for var in self.variables` loop populating `self.encoder_dict_`
in place: returns the (possibly partial) dictionary together with the error
raised mid-loop, if any; entries for the variables processed before a
failing one remain. -/
def buildDict {α : Type _} [DecidableEq α] (method : String) (X : Frame α) (y : List ℚ) :
    List String → List (String × List (α × Nat)) × Option String
  | [] => ([], none)
  | var :: rest =>
    match tIndex method X y var with
    | .error e => ([], some e)
    | .ok t =>
      let r := buildDict method X y rest
      ((var, enumerateDict t) :: r.1, r.2)

/-- `OrdinalEncoder.fit`: returns the post-call state (Python mutates
`self`) and the raised error, if any. The missing-target check precedes the
assignment `self.encoder_dict_ = {}`, so that error leaves the state
untouched, while a later error leaves the freshly assigned (possibly
partial) dictionary in place. The external validator
`_check_fit_input_and_variables` is a precondition (§6), not remodelled. -/
def fit {α : Type _} [DecidableEq α] (st : EncState α) (X : Frame α) (y : Option (List ℚ)) :
    EncState α × Option String :=
  if st.encoding_method = "ordered" ∧ y.isNone then
    (st, some "Please provide a target y for this encoding method")
  else
    match buildDict st.encoding_method X (y.getD []) st.variables with
    | (d, some e) => ({ st with encoder_dict := some d }, some e)
    | (d, none) => ({ st with encoder_dict := some d }, checkEncodingDictionary d)

/-- Modelled from the spec: the Mapping Applicator (`transform`) lives in
`BaseCategoricalTransformer`, not under `src/`. Per §4.2, each cell of a
configured column is replaced by its learned code, and a category absent
from the learned mapping becomes the missing-value marker (`none`, the NaN
of the model) instead of raising. -/
def transformCell {α : Type _} [DecidableEq α] (m : List (α × Nat)) (c : α) : Option Nat :=
  alookup c m

/-- Modelled from the spec: `transform` applied to one configured column. -/
def transformColumn {α : Type _} [DecidableEq α] (m : List (α × Nat)) (col : List α) :
    List (Option Nat) :=
  col.map (transformCell m)

/-- Modelled from the spec: the Mapping Inverter (`inverse_transform`)
lives in `BaseCategoricalTransformer`, not under `src/`. Per §4.3, the
learned category→code mapping is inverted and each code replaced by its
category; a code outside the learned codomain becomes the missing-value
marker. -/
def inverseCell {α : Type _} [DecidableEq α] (m : List (α × Nat)) (k : Nat) : Option α :=
  alookup k (m.map Prod.swap)

/-- Modelled from the spec: `inverse_transform` applied to one configured
column of codes (the marker propagates through). -/
def inverseColumn {α : Type _} [DecidableEq α] (m : List (α × Nat))
    (codes : List (Option Nat)) : List (Option α) :=
  codes.map (fun oc => oc.bind (inverseCell m))

/-- Stated from the claim's words: the rank of a category's first
appearance when scanning the column top-to-bottom, i.e. the number of
distinct values occurring strictly before the first occurrence of `c`
(`takeWhile (· ≠ c)` is the part of the column before the first `c`, and
`uniques` of a list enumerates its distinct values once each). -/
def firstSeenRank {α : Type _} [DecidableEq α] (col : List α) (c : α) : Nat :=
  (uniques (col.takeWhile (fun x => decide (x ≠ c)))).length

/-- First index of an element in a list. -/
def posOf? {α : Type _} [DecidableEq α] (c : α) : List α → Option Nat
  | [] => none
  | x :: xs => if x = c then some 0 else (posOf? c xs).map (· + 1)

section Lemmas

variable {α : Type _} [DecidableEq α]

theorem alookup_eq_none_iff {β : Type _} (c : α) (l : List (α × β)) :
    alookup c l = none ↔ c ∉ l.map Prod.fst := by
  induction l with
  | nil => simp [alookup]
  | cons kv rest ih =>
    by_cases h : kv.1 = c
    · simp [alookup, h]
    · simp only [alookup, if_neg h, ih, List.map_cons, List.mem_cons, not_or]
      constructor
      · intro h2
        exact ⟨fun hc => h hc.symm, h2⟩
      · intro h2
        exact h2.2

theorem posOf?_eq_some_of_mem {c : α} {l : List α} (h : c ∈ l) :
    ∃ i, posOf? c l = some i := by
  induction l with
  | nil => cases h
  | cons x xs ih =>
    by_cases hx : x = c
    · exact ⟨0, by simp [posOf?, hx]⟩
    · have hc : c ∈ xs := by
        rcases List.mem_cons.mp h with h1 | h1
        · exact absurd h1.symm hx
        · exact h1
      rcases ih hc with ⟨i, hi⟩
      exact ⟨i + 1, by simp [posOf?, hx, hi]⟩

theorem getElem?_of_posOf? {c : α} : ∀ {l : List α} {i : Nat},
    posOf? c l = some i → i < l.length ∧ l[i]? = some c := by
  intro l
  induction l with
  | nil => intro i h; cases h
  | cons x xs ih =>
    intro i h
    by_cases hx : x = c
    · simp only [posOf?, if_pos hx] at h
      cases h
      simpa using hx
    · simp only [posOf?, if_neg hx] at h
      rcases Option.map_eq_some.mp h with ⟨j, hj, rfl⟩
      rcases ih hj with ⟨hlt, hget⟩
      exact ⟨by simpa using Nat.succ_lt_succ hlt, by simpa using hget⟩

theorem mem_uniques {c : α} : ∀ {l : List α}, c ∈ uniques l ↔ c ∈ l := by
  intro l
  induction l with
  | nil => simp [uniques]
  | cons x xs ih =>
    by_cases hx : c = x
    · simp [uniques, hx]
    · simp [uniques, hx, List.mem_filter, ih]

theorem nodup_uniques : ∀ (l : List α), (uniques l).Nodup := by
  intro l
  induction l with
  | nil => simp [uniques]
  | cons x xs ih =>
    refine List.Nodup.cons ?_ (List.Nodup.filter _ ih)
    intro hx
    simpa using (List.mem_filter.mp hx).2

theorem alookup_enumFrom_swap (c : α) :
    ∀ (t : List α) (n : Nat),
      alookup c ((List.enumFrom n t).map (fun p => (p.2, p.1))) =
        (posOf? c t).map (· + n) := by
  intro t
  induction t with
  | nil => intro n; rfl
  | cons x xs ih =>
    intro n
    simp only [List.enumFrom, List.map_cons, alookup, posOf?]
    by_cases h : x = c
    · simp [h]
    · simp only [h, if_neg h, ih (n + 1)]
      cases posOf? c xs <;> simp <;> omega

theorem alookup_enumerateDict (c : α) (t : List α) :
    alookup c (enumerateDict t) = posOf? c t := by
  have h := alookup_enumFrom_swap c t 0
  simpa [enumerateDict, List.enum] using h

theorem alookup_enumFrom (k : Nat) :
    ∀ (t : List α) (n : Nat),
      alookup k (List.enumFrom n t) = if n ≤ k then t[k - n]? else none := by
  intro t
  induction t with
  | nil => intro n; simp [List.enumFrom, alookup]
  | cons x xs ih =>
    intro n
    simp only [List.enumFrom, alookup]
    by_cases h : n = k
    · subst h
      simp
    · rw [if_neg h, ih (n + 1)]
      by_cases hle : n ≤ k
      · have h1 : n + 1 ≤ k := by omega
        rw [if_pos h1, if_pos hle]
        have h2 : k - n = (k - (n + 1)) + 1 := by omega
        rw [h2]
        simp
      · rw [if_neg (by omega), if_neg hle]

theorem alookup_enum (k : Nat) (t : List α) : alookup k t.enum = t[k]? := by
  have h := alookup_enumFrom (α := α) k t 0
  simpa [List.enum] using h

theorem enumFrom_map_snd : ∀ (t : List α) (n : Nat), (List.enumFrom n t).map Prod.snd = t := by
  intro t
  induction t with
  | nil => intro n; rfl
  | cons x xs ih => intro n; simp [List.enumFrom, ih]

theorem enumerateDict_map_fst (t : List α) : (enumerateDict t).map Prod.fst = t := by
  have h := enumFrom_map_snd t 0
  simp only [enumerateDict, List.map_map, List.enum]
  convert h using 2

theorem enumFrom_map_fst : ∀ (t : List α) (n : Nat),
    (List.enumFrom n t).map Prod.fst = List.range' n t.length := by
  intro t
  induction t with
  | nil => intro n; rfl
  | cons x xs ih => intro n; simp [List.enumFrom, List.range', ih]

theorem enumerateDict_map_snd (t : List α) :
    (enumerateDict t).map Prod.snd = List.range t.length := by
  have h := enumFrom_map_fst t 0
  rw [List.range_eq_range']
  simp only [enumerateDict, List.map_map, List.enum]
  convert h using 2

theorem enumerateDict_map_swap (t : List α) :
    (enumerateDict t).map Prod.swap = t.enum := by
  simp only [enumerateDict, List.map_map]
  have h : (Prod.swap ∘ fun p : Nat × α => (p.2, p.1)) = id := by
    funext p
    rfl
  rw [h, List.map_id]

instance : IsTotal (α × ℚ) (fun p q => p.2 ≤ q.2) :=
  ⟨fun a b => le_total a.2 b.2⟩

instance : IsTrans (α × ℚ) (fun p q => p.2 ≤ q.2) :=
  ⟨fun _ _ _ h1 h2 => le_trans h1 h2⟩

theorem orderedCategories_perm (col : List α) (y : List ℚ) :
    List.Perm (orderedCategories col y) (uniques col) := by
  have h := (List.perm_insertionSort (fun p q : α × ℚ => p.2 ≤ q.2)
      ((uniques col).map (fun c => (c, targetMean col y c)))).map Prod.fst
  rw [List.map_map,
    show (Prod.fst ∘ fun c : α => (c, targetMean col y c)) = id from rfl,
    List.map_id] at h
  exact h

theorem mem_orderedCategories {c : α} {col : List α} {y : List ℚ} :
    c ∈ orderedCategories col y ↔ c ∈ col :=
  (orderedCategories_perm col y).mem_iff.trans mem_uniques

theorem length_orderedCategories (col : List α) (y : List ℚ) :
    (orderedCategories col y).length = (uniques col).length :=
  (orderedCategories_perm col y).length_eq

theorem snd_of_mem_sorted_pairs {col : List α} {y : List ℚ} {p : α × ℚ}
    (h : p ∈ List.insertionSort (fun p q : α × ℚ => p.2 ≤ q.2)
      ((uniques col).map (fun c => (c, targetMean col y c)))) :
    p.2 = targetMean col y p.1 := by
  have h2 : p ∈ (uniques col).map (fun c => (c, targetMean col y c)) :=
    (List.perm_insertionSort _ _).mem_iff.mp h
  rcases List.mem_map.mp h2 with ⟨c, _, rfl⟩
  rfl

theorem orderedCategories_strictMono {col : List α} {y : List ℚ} {a b : α}
    (ha : a ∈ col) (hb : b ∈ col) (hab : a ≠ b)
    (hlt : targetMean col y a < targetMean col y b) :
    ∃ i j, posOf? a (orderedCategories col y) = some i ∧
      posOf? b (orderedCategories col y) = some j ∧ i < j := by
  have hat : a ∈ orderedCategories col y := mem_orderedCategories.mpr ha
  have hbt : b ∈ orderedCategories col y := mem_orderedCategories.mpr hb
  rcases posOf?_eq_some_of_mem hat with ⟨i, hi⟩
  rcases posOf?_eq_some_of_mem hbt with ⟨j, hj⟩
  refine ⟨i, j, hi, hj, ?_⟩
  rcases getElem?_of_posOf? hi with ⟨hilt, higet⟩
  rcases getElem?_of_posOf? hj with ⟨hjlt, hjget⟩
  set pairs := (uniques col).map (fun c => (c, targetMean col y c)) with hpairs
  set sorted := List.insertionSort (fun p q : α × ℚ => p.2 ≤ q.2) pairs with hsorted
  have hts : orderedCategories col y = sorted.map Prod.fst := rfl
  rw [hts] at higet hjget hilt hjlt
  rw [List.length_map] at hilt hjlt
  have hia : (sorted[i]).1 = a := by
    rw [List.getElem?_map] at higet
    rcases Option.map_eq_some.mp higet with ⟨pa, hpa, hpa1⟩
    rw [List.getElem?_eq_getElem hilt] at hpa
    rw [Option.some.inj hpa]
    exact hpa1
  have hjb : (sorted[j]).1 = b := by
    rw [List.getElem?_map] at hjget
    rcases Option.map_eq_some.mp hjget with ⟨pb, hpb, hpb1⟩
    rw [List.getElem?_eq_getElem hjlt] at hpb
    rw [Option.some.inj hpb]
    exact hpb1
  have hsort : List.Pairwise (fun p q : α × ℚ => p.2 ≤ q.2) sorted :=
    List.sorted_insertionSort _ pairs
  have hma : (sorted[i]).2 = targetMean col y a := by
    rw [← hia]
    exact snd_of_mem_sorted_pairs (List.getElem_mem hilt)
  have hmb : (sorted[j]).2 = targetMean col y b := by
    rw [← hjb]
    exact snd_of_mem_sorted_pairs (List.getElem_mem hjlt)
  by_contra hij
  rcases Nat.lt_or_ge j i with hji | hji
  · have := (List.pairwise_iff_getElem.mp hsort) j i hjlt hilt hji
    rw [hma, hmb] at this
    exact absurd hlt (not_lt.mpr this)
  · have : i = j := by omega
    subst this
    exact hab (hia.symm.trans hjb)

theorem takeWhile_filter_comm (p q : α → Bool) (hpq : ∀ a, q a = false → p a = true) :
    ∀ l : List α, (l.filter q).takeWhile p = (l.takeWhile p).filter q := by
  intro l
  induction l with
  | nil => rfl
  | cons a rest ih =>
    by_cases hq : q a
    · by_cases hp : p a
      · simp [List.filter_cons, List.takeWhile_cons, hq, hp, ih]
      · simp [List.filter_cons, List.takeWhile_cons, hq, hp]
    · have hp : p a = true := hpq a (by simpa using hq)
      simp [List.filter_cons, List.takeWhile_cons, hq, hp, ih]

theorem takeWhile_uniques (c : α) :
    ∀ l : List α,
      (uniques l).takeWhile (fun a => decide (a ≠ c)) =
        uniques (l.takeWhile (fun a => decide (a ≠ c))) := by
  intro l
  induction l with
  | nil => rfl
  | cons x xs ih =>
    by_cases hx : x = c
    · subst hx
      simp [uniques, List.takeWhile_cons]
    · have hcomm := takeWhile_filter_comm (fun a => decide (a ≠ c))
        (fun a => decide (a ≠ x))
        (fun a ha => by
          have : a = x := by simpa using ha
          subst this
          simpa using hx) (uniques xs)
      simp only [uniques, List.takeWhile_cons, decide_eq_true_eq]
      rw [if_pos hx, hcomm, ih, if_pos hx]
      simp [uniques]

theorem posOf?_filter (p : α → Bool) {c : α} (hc : p c = true) :
    ∀ {l : List α}, c ∈ l →
      posOf? c (l.filter p) =
        some ((l.takeWhile (fun a => decide (a ≠ c))).countP p) := by
  intro l
  induction l with
  | nil => intro h; cases h
  | cons a rest ih =>
    intro h
    by_cases hac : a = c
    · subst hac
      simp [List.filter_cons, hc, posOf?, List.takeWhile_cons]
    · have hcr : c ∈ rest := by
        rcases List.mem_cons.mp h with h1 | h1
        · exact absurd h1.symm hac
        · exact h1
      have hne : decide (a ≠ c) = true := by simpa using hac
      cases hpa : p a with
      | true =>
        simp [List.filter_cons, List.takeWhile_cons, hpa, hne, posOf?, hac, ih hcr,
          List.countP_cons]
      | false =>
        simp [List.filter_cons, List.takeWhile_cons, hpa, hne, posOf?, hac, ih hcr,
          List.countP_cons]

theorem posOf?_uniques_eq_firstSeenRank {c : α} :
    ∀ {l : List α}, c ∈ l → posOf? c (uniques l) = some (firstSeenRank l c) := by
  intro l
  induction l with
  | nil => intro h; cases h
  | cons x xs ih =>
    intro h
    by_cases hx : x = c
    · subst hx
      simp [uniques, posOf?, firstSeenRank, List.takeWhile_cons]
    · have hcr : c ∈ xs := by
        rcases List.mem_cons.mp h with h1 | h1
        · exact absurd h1.symm hx
        · exact h1
      have hcu : c ∈ uniques xs := mem_uniques.mpr hcr
      have hcx : decide (c ≠ x) = true := by
        simp
        intro h2
        exact hx h2.symm
      have hfil := posOf?_filter (fun a => decide (a ≠ x)) hcx hcu
      have hxc : decide (x ≠ c) = true := by simpa using hx
      simp only [uniques, posOf?, if_neg hx, hfil, Option.map_some]
      rw [takeWhile_uniques c xs]
      simp only [firstSeenRank, List.takeWhile_cons, hxc, cond_true, if_true]
      simp only [uniques, List.length_cons]
      rw [List.countP_eq_length_filter]
      simp

theorem nodup_orderedCategories (col : List α) (y : List ℚ) :
    (orderedCategories col y).Nodup :=
  ((orderedCategories_perm col y).nodup_iff).mpr (nodup_uniques col)

theorem mem_of_tIndex_ok {method : String} {X : Frame α} {y : List ℚ} {var : String}
    {t : List α} (h : tIndex method X y var = .ok t) (c : α) :
    c ∈ t ↔ c ∈ colOf X var := by
  unfold tIndex at h
  by_cases hm : method = "ordered"
  · rw [if_pos hm] at h
    unfold orderedIndex at h
    by_cases ht : "target" ∈ X.map Prod.fst
    · rw [if_pos ht] at h
      cases h
    · rw [if_neg ht] at h
      cases h
      exact mem_orderedCategories
  · rw [if_neg hm] at h
    cases h
    exact mem_uniques

theorem length_of_tIndex_ok {method : String} {X : Frame α} {y : List ℚ} {var : String}
    {t : List α} (h : tIndex method X y var = .ok t) :
    t.length = (uniques (colOf X var)).length := by
  unfold tIndex at h
  by_cases hm : method = "ordered"
  · rw [if_pos hm] at h
    unfold orderedIndex at h
    by_cases ht : "target" ∈ X.map Prod.fst
    · rw [if_pos ht] at h
      cases h
    · rw [if_neg ht] at h
      cases h
      exact length_orderedCategories _ _
  · rw [if_neg hm] at h
    cases h
    rfl

theorem buildDict_ok_entry {method : String} {X : Frame α} {y : List ℚ} :
    ∀ {vs : List String} {d : List (String × List (α × Nat))},
      buildDict method X y vs = (d, none) → ∀ {var : String}, var ∈ vs →
        ∃ t, tIndex method X y var = .ok t ∧ alookup var d = some (enumerateDict t) := by
  intro vs
  induction vs with
  | nil =>
    intro d h var hv
    cases hv
  | cons v rest ih =>
    intro d h var hv
    cases htI : tIndex method X y v with
    | error e =>
      simp only [buildDict, htI] at h
      exact absurd (congrArg Prod.snd h) (by simp)
    | ok t =>
      simp only [buildDict, htI] at h
      have hd : (v, enumerateDict t) :: (buildDict method X y rest).1 = d :=
        congrArg Prod.fst h
      have he : (buildDict method X y rest).2 = none := congrArg Prod.snd h
      subst hd
      by_cases hvv : v = var
      · subst hvv
        exact ⟨t, htI, by simp [alookup]⟩
      · have h1 : var ∈ rest := by
          rcases List.mem_cons.mp hv with h2 | h2
          · exact absurd h2.symm hvv
          · exact h2
        have hrest : buildDict method X y rest = ((buildDict method X y rest).1, none) := by
          rw [← he]
        rcases ih hrest h1 with ⟨t2, ht2, hl2⟩
        refine ⟨t2, ht2, ?_⟩
        rw [show alookup var ((v, enumerateDict t) :: (buildDict method X y rest).1) =
          alookup var (buildDict method X y rest).1 from by simp [alookup, hvv]]
        exact hl2

theorem buildDict_ok_keys {method : String} {X : Frame α} {y : List ℚ} :
    ∀ {vs : List String} {d : List (String × List (α × Nat))},
      buildDict method X y vs = (d, none) → d.map Prod.fst = vs := by
  intro vs
  induction vs with
  | nil =>
    intro d h
    have hd : ([] : List (String × List (α × Nat))) = d := congrArg Prod.fst h
    subst hd
    rfl
  | cons v rest ih =>
    intro d h
    cases htI : tIndex method X y v with
    | error e =>
      simp only [buildDict, htI] at h
      exact absurd (congrArg Prod.snd h) (by simp)
    | ok t =>
      simp only [buildDict, htI] at h
      have hd : (v, enumerateDict t) :: (buildDict method X y rest).1 = d :=
        congrArg Prod.fst h
      have he : (buildDict method X y rest).2 = none := congrArg Prod.snd h
      subst hd
      have hrest : buildDict method X y rest = ((buildDict method X y rest).1, none) := by
        rw [← he]
      simp [ih hrest]

theorem length_filter_key {β : Type _} :
    ∀ {d : List (String × β)} {var : String},
      (d.map Prod.fst).Nodup → var ∈ d.map Prod.fst →
      (d.filter (fun e => decide (e.1 = var))).length = 1 := by
  intro d
  induction d with
  | nil =>
    intro var _ hv
    cases hv
  | cons kv rest ih =>
    intro var hnd hv
    rw [List.map_cons] at hnd hv
    have hnd1 := (List.nodup_cons.mp hnd).1
    have hnd2 := (List.nodup_cons.mp hnd).2
    by_cases hk : kv.1 = var
    · have hrest : rest.filter (fun e => decide (e.1 = var)) = [] := by
        rw [List.filter_eq_nil]
        intro e he
        simp only [decide_eq_true_eq]
        intro hev
        exact hnd1 (hk ▸ hev ▸ List.mem_map_of_mem Prod.fst he)
      simp [List.filter_cons, hk, hrest]
    · have h1 : var ∈ rest.map Prod.fst := by
        rcases List.mem_cons.mp hv with h2 | h2
        · exact absurd h2.symm hk
        · exact h2
      simp [List.filter_cons, hk, ih hnd2 h1]

theorem buildDict_indep_y {method : String} (hm : method ≠ "ordered") (X : Frame α)
    (y1 y2 : List ℚ) : ∀ vs : List String,
      buildDict method X y1 vs = buildDict method X y2 vs := by
  intro vs
  induction vs with
  | nil => rfl
  | cons v rest ih =>
    have ht : ∀ y : List ℚ, tIndex method X y v = .ok (uniques (colOf X v)) := by
      intro y
      unfold tIndex
      rw [if_neg hm]
    simp only [buildDict, ht y1, ht y2, ih]

theorem fit_ok {st : EncState α} {X : Frame α} {y : Option (List ℚ)} {st1 : EncState α}
    (h : fit st X y = (st1, none)) :
    ∃ d, st1.encoder_dict = some d ∧
      buildDict st.encoding_method X (y.getD []) st.«variables» = (d, none) ∧
      st1.encoding_method = st.encoding_method ∧ st1.«variables» = st.«variables» := by
  unfold fit at h
  by_cases hc : st.encoding_method = "ordered" ∧ y.isNone
  · rw [if_pos hc] at h
    exact absurd (congrArg Prod.snd h) (by simp)
  · rw [if_neg hc] at h
    rcases hbd : buildDict st.encoding_method X (y.getD []) st.«variables» with ⟨d, err⟩
    rw [hbd] at h
    cases err with
    | some e =>
      exact absurd (congrArg Prod.snd h) (by simp)
    | none =>
      have h1 : ({ st with encoder_dict := some d } : EncState α) = st1 :=
        congrArg Prod.fst h
      exact ⟨d, by rw [← h1], rfl, by rw [← h1], by rw [← h1]⟩

end Lemmas

/-- C1: after a successful `fit` in Ordered mode, for every configured column
and every pair of distinct categories `a`, `b` of that column, if the
arithmetic mean of the target over rows with category `a` is strictly below
the mean over rows with category `b`, then the code assigned to `a` is
strictly below the code assigned to `b` (categories sorted by ascending
target mean, lowest mean receiving code 0). -/
theorem ordered_fit_codes_respect_target_means {α : Type _} [DecidableEq α]
    {st st1 : EncState α} {X : Frame α} {ys : List ℚ} {var : String} {a b : α}
    (hmeth : st.encoding_method = "ordered")
    (hvar : var ∈ st.«variables»)
    (hfit : fit st X (some ys) = (st1, none))
    (hlen : (colOf X var).length = ys.length)
    (ha : a ∈ colOf X var) (hb : b ∈ colOf X var) (hab : a ≠ b)
    (hlt : targetMean (colOf X var) ys a < targetMean (colOf X var) ys b) :
    ∃ d m i j, st1.encoder_dict = some d ∧ alookup var d = some m ∧
      alookup a m = some i ∧ alookup b m = some j ∧ i < j := by
  rcases fit_ok hfit with ⟨d, hd, hbd, _, _⟩
  simp only [Option.getD_some] at hbd
  rcases buildDict_ok_entry hbd hvar with ⟨t, htI, hl⟩
  unfold tIndex at htI
  rw [if_pos hmeth] at htI
  unfold orderedIndex at htI
  by_cases htgt : "target" ∈ X.map Prod.fst
  · rw [if_pos htgt] at htI
    cases htI
  · rw [if_neg htgt] at htI
    cases htI
    rcases orderedCategories_strictMono ha hb hab hlt with ⟨i, j, hi, hj, hij⟩
    refine ⟨d, enumerateDict (orderedCategories (colOf X var) ys), i, j, hd, hl, ?_, ?_, hij⟩
    · rw [alookup_enumerateDict]
      exact hi
    · rw [alookup_enumerateDict]
      exact hj

/-- C1 witness: the three-category column `["b", "r", "g"]` with target
`[1, 2, 0]` in Ordered mode; `g` has mean 0 < mean 1 of `b`, and its code is
strictly smaller. -/
theorem ordered_fit_codes_respect_target_means_witness :
    ∃ d m i j,
      (⟨"ordered", ["colour"],
          some [("colour", [("g", 0), ("b", 1), ("r", 2)])]⟩ : EncState String).encoder_dict
        = some d ∧
      alookup "colour" d = some m ∧ alookup "g" m = some i ∧
      alookup "b" m = some j ∧ i < j :=
  @ordered_fit_codes_respect_target_means String _
    ⟨"ordered", ["colour"], none⟩
    ⟨"ordered", ["colour"], some [("colour", [("g", 0), ("b", 1), ("r", 2)])]⟩
    [("colour", ["b", "r", "g"])] [1, 2, 0] "colour" "g" "b"
    rfl (by decide)
    (by simp [fit, buildDict, tIndex, orderedIndex, orderedCategories, targetMean, uniques,
      enumerateDict, checkEncodingDictionary, colOf, alookup, List.insertionSort,
      List.orderedInsert, List.enum, List.enumFrom])
    (by decide) (by decide) (by decide) (by decide)
    (by simp [targetMean, colOf, alookup])

/-- C2: after `fit` in Arbitrary mode, the code assigned to each category of a
configured column equals the rank of that category's first appearance when
scanning the column top-to-bottom (first seen gets 0, second distinct value
gets 1, and so on). -/
theorem arbitrary_fit_codes_are_first_seen_ranks {α : Type _} [DecidableEq α]
    {st st1 : EncState α} {X : Frame α} {y : Option (List ℚ)} {var : String} {c : α}
    (hmeth : st.encoding_method = "arbitrary")
    (hvar : var ∈ st.«variables»)
    (hfit : fit st X y = (st1, none))
    (hc : c ∈ colOf X var) :
    ∃ d m, st1.encoder_dict = some d ∧ alookup var d = some m ∧
      alookup c m = some (firstSeenRank (colOf X var) c) := by
  rcases fit_ok hfit with ⟨d, hd, hbd, _, _⟩
  rcases buildDict_ok_entry hbd hvar with ⟨t, htI, hl⟩
  unfold tIndex at htI
  rw [if_neg (by rw [hmeth]; decide)] at htI
  cases htI
  refine ⟨d, enumerateDict (uniques (colOf X var)), hd, hl, ?_⟩
  rw [alookup_enumerateDict]
  exact posOf?_uniques_eq_firstSeenRank hc

/-- C2 witness: the spec's scenario column `[blue, red, grey, blue, red, red]`
in Arbitrary mode; `grey` first appears after the two distinct values `blue`
and `red`, so its code is 2. -/
theorem arbitrary_fit_codes_are_first_seen_ranks_witness :
    ∃ d m,
      (⟨"arbitrary", ["colour"],
          some [("colour", [("blue", 0), ("red", 1), ("grey", 2)])]⟩ : EncState String).encoder_dict
        = some d ∧
      alookup "colour" d = some m ∧
      alookup "grey" m = some (firstSeenRank ["blue", "red", "grey", "blue", "red", "red"] "grey") :=
  @arbitrary_fit_codes_are_first_seen_ranks String _
    ⟨"arbitrary", ["colour"], none⟩
    ⟨"arbitrary", ["colour"], some [("colour", [("blue", 0), ("red", 1), ("grey", 2)])]⟩
    [("colour", ["blue", "red", "grey", "blue", "red", "red"])] none "colour" "grey"
    rfl (by decide) (by decide) (by decide)

/-- C3: after a successful `fit` in either mode, every configured column has
exactly one entry in `encoder_dict_`, and that entry's codomain is exactly
`[0, 1, ..., k-1]` where `k` is the number of distinct category values
observed in that column during fit (dense, zero-based, no duplicates, no
gaps). -/
theorem fit_mapping_codomain_dense {α : Type _} [DecidableEq α]
    {st st1 : EncState α} {X : Frame α} {y : Option (List ℚ)} {var : String}
    (hnd : st.«variables».Nodup) (hvar : var ∈ st.«variables»)
    (hfit : fit st X y = (st1, none)) :
    ∃ d m, st1.encoder_dict = some d ∧
      (d.filter (fun e => decide (e.1 = var))).length = 1 ∧
      alookup var d = some m ∧
      m.map Prod.snd = List.range (uniques (colOf X var)).length := by
  rcases fit_ok hfit with ⟨d, hd, hbd, _, _⟩
  rcases buildDict_ok_entry hbd hvar with ⟨t, htI, hl⟩
  have hkeys := buildDict_ok_keys hbd
  refine ⟨d, enumerateDict t, hd, ?_, hl, ?_⟩
  · exact length_filter_key (by rw [hkeys]; exact hnd) (by rw [hkeys]; exact hvar)
  · rw [enumerateDict_map_snd, length_of_tIndex_ok htI]

/-- C3 witness: the Arbitrary-mode fit of the spec scenario, whose column has
three distinct values and receives codes `[0, 1, 2]`. -/
theorem fit_mapping_codomain_dense_witness :
    ∃ d m,
      (⟨"arbitrary", ["colour"],
          some [("colour", [("blue", 0), ("red", 1), ("grey", 2)])]⟩ : EncState String).encoder_dict
        = some d ∧
      (d.filter (fun e => decide (e.1 = "colour"))).length = 1 ∧
      alookup "colour" d = some m ∧
      m.map Prod.snd =
        List.range (uniques (colOf [("colour", ["blue", "red", "grey", "blue", "red", "red"])]
          "colour")).length :=
  @fit_mapping_codomain_dense String _
    ⟨"arbitrary", ["colour"], none⟩
    ⟨"arbitrary", ["colour"], some [("colour", [("blue", 0), ("red", 1), ("grey", 2)])]⟩
    [("colour", ["blue", "red", "grey", "blue", "red", "red"])] none "colour"
    (by decide) (by decide) (by decide)

/-- C4: for a fitted encoder, `inverse_transform` after `transform` reproduces
every cell of a configured column whose category value was present in the fit
data for that column (the mapping entry is the one the successful fit
learned, in either mode). -/
theorem transform_inverse_round_trip {α : Type _} [DecidableEq α]
    {st st1 : EncState α} {X : Frame α} {y : Option (List ℚ)} {var : String}
    (hvar : var ∈ st.«variables»)
    (hfit : fit st X y = (st1, none)) :
    ∃ d m, st1.encoder_dict = some d ∧ alookup var d = some m ∧
      ∀ xs : List α, (∀ c ∈ xs, c ∈ colOf X var) →
        inverseColumn m (transformColumn m xs) = xs.map some := by
  rcases fit_ok hfit with ⟨d, hd, hbd, _, _⟩
  rcases buildDict_ok_entry hbd hvar with ⟨t, htI, hl⟩
  refine ⟨d, enumerateDict t, hd, hl, ?_⟩
  intro xs hxs
  have hcell : ∀ c ∈ xs,
      (transformCell (enumerateDict t) c).bind (inverseCell (enumerateDict t)) = some c := by
    intro c hc
    have hct : c ∈ t := (mem_of_tIndex_ok htI c).mpr (hxs c hc)
    rcases posOf?_eq_some_of_mem hct with ⟨i, hi⟩
    rcases getElem?_of_posOf? hi with ⟨_, hget⟩
    rw [show transformCell (enumerateDict t) c = posOf? c t from alookup_enumerateDict c t, hi]
    show inverseCell (enumerateDict t) i = some c
    rw [inverseCell, enumerateDict_map_swap, alookup_enum]
    exact hget
  rw [inverseColumn, transformColumn, List.map_map]
  calc xs.map ((fun oc => oc.bind (inverseCell (enumerateDict t))) ∘ transformCell (enumerateDict t))
      = xs.map (fun c => (transformCell (enumerateDict t) c).bind (inverseCell (enumerateDict t))) :=
        rfl
    _ = xs.map some := List.map_congr_left hcell

/-- C4 witness: round trip of the column `["b", "g"]` through the mapping
learned by the Ordered-mode fit of the C1 witness data. -/
theorem transform_inverse_round_trip_witness :
    ∃ d m,
      (⟨"ordered", ["colour"],
          some [("colour", [("g", 0), ("b", 1), ("r", 2)])]⟩ : EncState String).encoder_dict
        = some d ∧
      alookup "colour" d = some m ∧
      ∀ xs : List String, (∀ c ∈ xs, c ∈ colOf [("colour", ["b", "r", "g"])] "colour") →
        inverseColumn m (transformColumn m xs) = xs.map some :=
  @transform_inverse_round_trip String _
    ⟨"ordered", ["colour"], none⟩
    ⟨"ordered", ["colour"], some [("colour", [("g", 0), ("b", 1), ("r", 2)])]⟩
    [("colour", ["b", "r", "g"])] (some [1, 2, 0]) "colour"
    (by decide)
    (by simp [fit, buildDict, tIndex, orderedIndex, orderedCategories, targetMean, uniques,
      enumerateDict, checkEncodingDictionary, colOf, alookup, List.insertionSort,
      List.orderedInsert, List.enum, List.enumFrom])

/-- C5: for a fitted encoder, a category value absent from a configured
column's fit data is replaced by the missing-value marker by `transform`
(no exception: the applicator is a total function into marked values), and
symmetrically a code outside the learned codomain is replaced by the marker
by `inverse_transform`. -/
theorem unseen_values_map_to_marker {α : Type _} [DecidableEq α]
    {st st1 : EncState α} {X : Frame α} {y : Option (List ℚ)} {var : String}
    (hvar : var ∈ st.«variables»)
    (hfit : fit st X y = (st1, none)) :
    ∃ d m, st1.encoder_dict = some d ∧ alookup var d = some m ∧
      (∀ c : α, c ∉ colOf X var → transformCell m c = none) ∧
      (∀ k : Nat, k ∉ m.map Prod.snd → inverseCell m k = none) := by
  rcases fit_ok hfit with ⟨d, hd, hbd, _, _⟩
  rcases buildDict_ok_entry hbd hvar with ⟨t, htI, hl⟩
  refine ⟨d, enumerateDict t, hd, hl, ?_, ?_⟩
  · intro c hc
    rw [transformCell, alookup_eq_none_iff, enumerateDict_map_fst]
    exact fun hct => hc ((mem_of_tIndex_ok htI c).mp hct)
  · intro k hk
    rw [enumerateDict_map_snd, List.mem_range, not_lt] at hk
    rw [inverseCell, enumerateDict_map_swap, alookup_enum]
    exact List.getElem?_eq_none hk

/-- C5 witness: the category `"green"` was never seen by the Arbitrary-mode
fit, so `transform` writes the marker; the code 3 is outside the learned
codomain `[0, 1, 2]`, so `inverse_transform` writes the marker. -/
theorem unseen_values_map_to_marker_witness :
    (∃ d m,
      (⟨"arbitrary", ["colour"],
          some [("colour", [("blue", 0), ("red", 1), ("grey", 2)])]⟩ : EncState String).encoder_dict
        = some d ∧
      alookup "colour" d = some m ∧
      (∀ c : String,
        c ∉ colOf [("colour", ["blue", "red", "grey", "blue", "red", "red"])] "colour" →
          transformCell m c = none) ∧
      (∀ k : Nat, k ∉ m.map Prod.snd → inverseCell m k = none)) ∧
    "green" ∉ colOf [("colour", ["blue", "red", "grey", "blue", "red", "red"])] "colour" :=
  ⟨@unseen_values_map_to_marker String _
    ⟨"arbitrary", ["colour"], none⟩
    ⟨"arbitrary", ["colour"], some [("colour", [("blue", 0), ("red", 1), ("grey", 2)])]⟩
    [("colour", ["blue", "red", "grey", "blue", "red", "red"])] none "colour"
    (by decide) (by decide), by decide⟩

/-- C6: construction accepts exactly the two encoding methods `"ordered"` and
`"arbitrary"`; any other value (such as `"mean"`) is rejected with a
`ValueError` at construction time, before any fit. -/
theorem init_validates_encoding_method {α : Type _} (m : String) (vs : List String) :
    (m = "ordered" ∨ m = "arbitrary" → ∃ st : EncState α, init α m vs = .ok st) ∧
    (m ≠ "ordered" → m ≠ "arbitrary" →
      init α m vs = .error "encoding_method takes only values 'ordered' and 'arbitrary'") := by
  constructor
  · intro h
    refine ⟨⟨m, vs, none⟩, ?_⟩
    have hmem : m ∈ ["ordered", "arbitrary"] := by
      rcases h with h | h
      · rw [h]
        decide
      · rw [h]
        decide
    unfold init
    rw [if_neg (not_not_intro hmem)]
  · intro h1 h2
    unfold init
    rw [if_pos (by simp [h1, h2])]

/-- C6 witness: `encoding_method = "mean"` is rejected at construction and
`encoding_method = "ordered"` is accepted. -/
theorem init_validates_encoding_method_witness :
    init Nat "mean" ["colour"]
      = .error "encoding_method takes only values 'ordered' and 'arbitrary'" ∧
    ∃ st : EncState Nat, init Nat "ordered" ["colour"] = .ok st :=
  ⟨(init_validates_encoding_method "mean" ["colour"]).2 (by decide) (by decide),
    (init_validates_encoding_method "ordered" ["colour"]).1 (Or.inl rfl)⟩

/-- C7: a `fit` call in Ordered mode with no target raises the configuration
error and aborts with the encoder state exactly as it was before the call:
`encoder_dict_` is not populated by that call. -/
theorem ordered_fit_without_target_errors {α : Type _} [DecidableEq α]
    (st : EncState α) (X : Frame α) (hmeth : st.encoding_method = "ordered") :
    fit st X none = (st, some "Please provide a target y for this encoding method") := by
  unfold fit
  rw [if_pos ⟨hmeth, rfl⟩]

/-- C7 witness: an Ordered-mode encoder fit without a target keeps its
(empty) learned state and raises. -/
theorem ordered_fit_without_target_errors_witness :
    fit (⟨"ordered", ["colour"], none⟩ : EncState String) [("colour", ["a"])] none =
      (⟨"ordered", ["colour"], none⟩,
        some "Please provide a target y for this encoding method") :=
  ordered_fit_without_target_errors _ _ rfl

/-- C8 counterexample: `fit` names the joined target column with the fixed
label `"target"`. For an `X` that already has a feature column named
`"target"`, the joined name is NOT distinct from the feature columns
(`tempColumns` carries the label twice), and the Ordered-mode fit raises
instead of computing the per-category means from `y`. -/
theorem fit_target_join_name_collides_counterexample :
    tempColumns [("colour", ["a", "b"]), ("target", ["u", "v"])]
        = ["colour", "target", "target"] ∧
    "target" ∈ ([("colour", ["a", "b"]), ("target", ["u", "v"])] : Frame String).map Prod.fst ∧
    (fit (⟨"ordered", ["colour"], none⟩ : EncState String)
        [("colour", ["a", "b"]), ("target", ["u", "v"])] (some [0, 1])).2
      = some "sort_values() missing 1 required positional argument: by" := by
  decide

/-- C8 amended: `fit` joins the target under the fixed column name
`"target"`, not under a name guaranteed fresh. Whenever no feature column of
`X` is itself named `"target"`, that name is distinct from every feature
column — the label occurs exactly once in the joined frame — and the
per-category means are computed from `y` (the sorted index is
`orderedCategories` over the joined target); when `X` does contain a feature
column named `"target"`, the Ordered-mode index computation raises instead
of computing means. -/
theorem fit_joins_target_under_fixed_name {α : Type _} [DecidableEq α]
    (X : Frame α) (y : List ℚ) (var : String) :
    ("target" ∉ X.map Prod.fst →
      (tempColumns X).count "target" = 1 ∧
      orderedIndex X y var = .ok (orderedCategories (colOf X var) y)) ∧
    ("target" ∈ X.map Prod.fst →
      orderedIndex X y var
        = .error "sort_values() missing 1 required positional argument: by") := by
  constructor
  · intro h
    constructor
    · rw [tempColumns, List.count_append, List.count_eq_zero.mpr h]
      decide
    · unfold orderedIndex
      rw [if_neg h]
  · intro h
    unfold orderedIndex
    rw [if_pos h]

/-- C8 amended witness: a frame without a `"target"` feature column, where
the joined label is unique and the ordered index is computed from `y`. -/
theorem fit_joins_target_under_fixed_name_witness :
    (tempColumns [("colour", ["a"])]).count "target" = 1 ∧
    orderedIndex ([("colour", ["a"])] : Frame String) [2] "colour"
      = .ok (orderedCategories (colOf [("colour", ["a"])] "colour") [2]) :=
  (fit_joins_target_under_fixed_name [("colour", ["a"])] [2] "colour").1 (by decide)

/-- C9 counterexample: a failing `fit` call can commit partial state. With a
previously fitted Ordered-mode encoder, a second fit on a frame containing a
`"target"` feature column raises, yet afterwards `encoder_dict_` is the
freshly assigned empty dictionary, not the pre-call mapping. -/
theorem fit_error_leaves_partial_state_counterexample :
    (fit (⟨"ordered", ["colour"], some [("colour", [("a", 0)])]⟩ : EncState String)
        [("colour", ["a"]), ("target", ["b"])] (some [1])).2.isSome = true ∧
    (fit (⟨"ordered", ["colour"], some [("colour", [("a", 0)])]⟩ : EncState String)
        [("colour", ["a"]), ("target", ["b"])] (some [1])).1
      ≠ ⟨"ordered", ["colour"], some [("colour", [("a", 0)])]⟩ ∧
    (fit (⟨"ordered", ["colour"], some [("colour", [("a", 0)])]⟩ : EncState String)
        [("colour", ["a"]), ("target", ["b"])] (some [1])).1.encoder_dict = some [] := by
  decide

/-- C9 amended: only the missing-target error aborts `fit` with the learned
state unchanged; any other failing fit call has already replaced
`encoder_dict_` with the freshly built — possibly empty or partial —
dictionary of the aborted call, so partial state is observable after such a
failure. -/
theorem fit_error_state_characterization {α : Type _} [DecidableEq α]
    (st : EncState α) (X : Frame α) (y : Option (List ℚ)) (st1 : EncState α) (e : String)
    (h : fit st X y = (st1, some e)) :
    st1 = st ∨
      st1.encoder_dict
        = some (buildDict st.encoding_method X (y.getD []) st.«variables»).1 := by
  unfold fit at h
  by_cases hc : st.encoding_method = "ordered" ∧ y.isNone
  · rw [if_pos hc] at h
    left
    exact (congrArg Prod.fst h).symm
  · rw [if_neg hc] at h
    rcases hbd : buildDict st.encoding_method X (y.getD []) st.«variables» with ⟨d, err⟩
    rw [hbd] at h
    right
    cases err with
    | some e2 =>
      have h1 : ({ st with encoder_dict := some d } : EncState α) = st1 :=
        congrArg Prod.fst h
      rw [← h1]
    | none =>
      have h1 : ({ st with encoder_dict := some d } : EncState α) = st1 :=
        congrArg Prod.fst h
      rw [← h1]

/-- C9 amended witness: the missing-target failure, which does leave the
state unchanged (the left disjunct). -/
theorem fit_error_state_characterization_witness :
    (⟨"ordered", ["colour"], none⟩ : EncState String) = ⟨"ordered", ["colour"], none⟩ ∨
    (⟨"ordered", ["colour"], none⟩ : EncState String).encoder_dict
      = some (buildDict "ordered" [("colour", ["a"])]
          ((none : Option (List ℚ)).getD []) ["colour"]).1 :=
  fit_error_state_characterization ⟨"ordered", ["colour"], none⟩ [("colour", ["a"])] none
    ⟨"ordered", ["colour"], none⟩ "Please provide a target y for this encoding method"
    (by decide)

/-- C10: in Arbitrary mode the supplied target has no effect: fitting the
same state and frame with any two targets (present or absent) produces
identical results, in particular identical `encoder_dict_`. -/
theorem arbitrary_fit_ignores_target {α : Type _} [DecidableEq α]
    (st : EncState α) (X : Frame α) (y1 y2 : Option (List ℚ))
    (hmeth : st.encoding_method = "arbitrary") :
    fit st X y1 = fit st X y2 := by
  have hm : st.encoding_method ≠ "ordered" := by
    rw [hmeth]
    decide
  unfold fit
  rw [if_neg (fun hco => hm hco.1), if_neg (fun hco => hm hco.1)]
  rw [buildDict_indep_y hm X (y1.getD []) (y2.getD []) st.«variables»]

/-- C10 witness: the Arbitrary-mode fit of the spec scenario gives the same
result with target `[5]` as with no target at all. -/
theorem arbitrary_fit_ignores_target_witness :
    fit (⟨"arbitrary", ["colour"], none⟩ : EncState String)
        [("colour", ["blue", "red", "grey", "blue", "red", "red"])] (some [5]) =
      fit (⟨"arbitrary", ["colour"], none⟩ : EncState String)
        [("colour", ["blue", "red", "grey", "blue", "red", "red"])] none :=
  arbitrary_fit_ignores_target _ _ _ _ rfl

end FeatureEngine
